import Mathlib

/-!
Shallow embedding of `naive_bayes.py` (class `Bayes_Classifier`): a binary
Naive Bayes sentiment classifier over unigram/bigram features.

Conventions of the embedding:
* Python strings are Lean `String`s; the string operations the source uses
  (`len`, slicing `[:-n]`, `endswith`, `strip`, `split`, `lower`,
  `re.sub(r"[^a-z0-9\s']", "  ", ...)`) are defined below over the
  underlying character lists, following Python semantics.
* Python floats are embedded as exact rationals `ℚ`.  The source only ever
  takes `math.log` of strictly positive values and then adds such logs and
  compares the sums; since `log` is strictly monotone and turns products
  into sums, a log-domain score `log p + log v1 + ... + log vk` is
  represented here by the exact product `p * v1 * ... * vk`, and
  `float('-inf')` by `⊥` in `WithBot ℚ`.  Order comparisons between scores
  and the "priors sum to 1 under exp" facts are exact in this
  representation; floating-point rounding itself is not modelled.
* The per-instance dicts keyed by the two labels ("1" and "5") are embedded
  as total functions from `String`; the keys actually present are exactly
  the members of `labels`, and the membership test `label in self.wordCounts`
  is embedded as membership in `labels`.
* `defaultdict(int)` inner counters are total functions defaulting to 0,
  matching both autovivification on increment and `.get(token, 0)` reads.
-/

namespace NaiveBayes

/-! ### Python-style string primitives -/

/-- Characters Python's `str.split()` / `str.strip()` treat as whitespace
(the ASCII ones; the source data is ASCII). -/
def isSpaceChar (c : Char) : Bool :=
  c = ' ' || c = '\t' || c = '\n' || c = '\r' || c = '\x0b' || c = '\x0c'

/-- `len(s)` : number of characters. -/
def strLen (s : String) : ℕ := s.data.length

/-- `s[:-n]` for `0 < n ≤ len(s)` : drop the last `n` characters. -/
def strDropRight (s : String) (n : ℕ) : String := ⟨s.data.take (s.data.length - n)⟩

/-- The last `n` characters of a character list. -/
def takeLast (l : List Char) (n : ℕ) : List Char := l.drop (l.length - n)

/-- `s.endswith(suf)`. -/
def strEndsWith (s suf : String) : Bool := takeLast s.data (strLen suf) == suf.data

/-- `s.strip()` : remove leading and trailing whitespace. -/
def strTrim (s : String) : String :=
  ⟨((s.data.dropWhile isSpaceChar).reverse.dropWhile isSpaceChar).reverse⟩

/-- ASCII lowercasing of one character, as `str.lower()` acts on the
ASCII range (the only characters that survive the cleaning step). -/
def lowerChar (c : Char) : Char :=
  if 'A' ≤ c ∧ c ≤ 'Z' then Char.ofNat (c.toNat + 32) else c

/-- `s.lower()`. -/
def strLower (s : String) : String := ⟨s.data.map lowerChar⟩

/-- Helper for `s.split()` : accumulate the current token (reversed) and
emit it at each whitespace run boundary. -/
def wsTokens : List Char → List Char → List String
  | [], acc => if acc = [] then [] else [⟨acc.reverse⟩]
  | c :: rest, acc =>
      if isSpaceChar c then
        if acc = [] then wsTokens rest [] else ⟨acc.reverse⟩ :: wsTokens rest []
      else wsTokens rest (c :: acc)

/-- `s.split()` : split on whitespace runs, no empty tokens. -/
def pySplit (s : String) : List String := wsTokens s.data []

/-- Split a character list at the first `'|'`, if any. -/
def breakPipe : List Char → Option (List Char × List Char)
  | [] => none
  | c :: rest =>
      if c = '|' then some ([], rest)
      else (breakPipe rest).map (fun p => (c :: p.1, p.2))

/-- `s.split('|', 2)` : at most two splits, so one, two or three fields. -/
def splitPipe2 (s : String) : List String :=
  match breakPipe s.data with
  | none => [s]
  | some (a, r1) =>
      match breakPipe r1 with
      | none => [⟨a⟩, ⟨r1⟩]
      | some (b, r2) => [⟨a⟩, ⟨b⟩, ⟨r2⟩]

/-! ### Stopwords (`_buildStopwords`) -/

/-- The whitespace-separated stopword block of `_buildStopwords`. -/
def stopwordsBase : String :=
  "
  a about above after again against all am an and any are aren't as at
  be because been before being below between both but by
  can can't cannot could couldn't did didn't do does doesn't doing don't down during
  each few for from further
  had hadn't has hasn't have haven't having he he'd he'll he's her here here's hers herself him himself his how how's
  i i'd i'll i'm i've if in into is isn't it it's its itself
  let's me more most mustn't my myself
  no nor not of off on once only or other ought our ours ourselves out over own
  same shan't she she'd she'll she's should shouldn't so some such than that that's the their theirs them themselves then there there's these they they'd they'll they're they've this those through to too under until up very
  was wasn't we we'd we'll we're we've were weren't what what's when when's where where's which while who who's whom why why's with won't would wouldn't you you'd you'll you're you've your yours yourself yourselves
  "

/-- `_buildStopwords` : split the block, strip and lowercase each part, keep
the non-empty ones (membership in this list is the frozenset membership). -/
def stopWords : List String :=
  ((pySplit stopwordsBase).map (fun p => strLower (strTrim p))).filter (fun t => t ≠ "")

/-! ### Stemmer (`_stemWord`) -/

/-- The ordered multi-character suffix table of `_stemWord`. -/
def endings : List String :=
  ["ational", "fulness", "iveness", "ousness", "ization",
   "biliti", "tional", "lessli", "entli", "ation", "alism",
   "aliti", "ousli", "fulli", "enci", "anci", "abli",
   "izer", "ator", "logi", "ical", "ness", "ment", "ingly",
   "edly", "ing", "ers", "ies", "ied", "ly", "ed", "es", "s"]

/-- The `for ending in endings` loop: strip the FIRST suffix of the table
ending the word with at least 3 characters remaining, then stop. -/
def stripFirstSuffix (w : String) : List String → String
  | [] => w
  | e :: rest =>
      if strEndsWith w e ∧ 3 ≤ strLen w - strLen e then strDropRight w (strLen e)
      else stripFirstSuffix w rest

/-- `_stemWord` : words of length ≤ 3 unchanged; otherwise the ordered
suffix pass, then three conditional strips, then the non-empty fallback. -/
def stemWord (word : String) : String :=
  if strLen word ≤ 3 then word
  else
    let w1 := stripFirstSuffix word endings
    let w2 := if strEndsWith w1 "er" ∧ 4 < strLen w1 then strDropRight w1 2 else w1
    let w3 := if strEndsWith w2 "ly" ∧ 4 < strLen w2 then strDropRight w2 2 else w2
    let w4 := if strEndsWith w3 "e" ∧ 3 < strLen w3 then strDropRight w3 1 else w3
    if w4 = "" then word else w4

/-- A single conditional tail rule as the specification describes one:
strip `suf` when it ends the word and the word is currently longer than
`minLen`. -/
def stripIfSuffix (suf : String) (minLen : ℕ) (w : String) : String :=
  if strEndsWith w suf ∧ minLen < strLen w then strDropRight w (strLen suf) else w

/-! ### Tokenizer (`_tokenizeText`) -/

/-- The character class kept by `re.sub(r"[^a-z0-9\s']", "  ", ...)`. -/
def keepChar (c : Char) : Bool :=
  ('a' ≤ c && c ≤ 'z') || ('0' ≤ c && c ≤ '9') || isSpaceChar c || c = '\''

/-- The `re.sub` call: every non-kept character becomes two spaces. -/
def cleanText (s : String) : String :=
  ⟨s.data.flatMap (fun c => if keepChar c then [c] else [' ', ' '])⟩

/-- `_tokenizeText` : lowercase, clean, whitespace-split, drop stopwords,
stem the survivors. -/
def tokenizeText (text : String) : List String :=
  let rawTokens := pySplit (cleanText (strLower text))
  (rawTokens.filter (fun tok => tok ∉ stopWords)).map stemWord

/-! ### Feature extraction (`_extractFeatures`) -/

/-- The bigram `while` loop: one underscore-joined feature per adjacent
pair of tokens. -/
def bigramsOf : List String → List String
  | a :: b :: rest => (a ++ "_" ++ b) :: bigramsOf (b :: rest)
  | _ => []

/-- `_extractFeatures` : the truthy unigrams, then (in bigram mode, when
there are at least two tokens) the adjacent-pair bigrams. -/
def extractFeatures (useBigrams : Bool) (text : String) : List String :=
  let tokens := tokenizeText text
  let features := tokens.filter (fun t => t ≠ "")
  if useBigrams ∧ 1 < tokens.length then features ++ bigramsOf tokens else features

/-! ### Model state and training (`__init__`, `_resetModel`, `train`) -/

/-- The label tuple `('1', '5')` of the classifier, in its fixed order. -/
def labels : List String := ["1", "5"]

/-- The mutable fields of `Bayes_Classifier` plus its immutable
configuration.  `logPriors` stores `⊥` for `float('-inf')` and `some p`
for `math.log(p)` (the exact argument of the log, see the header). -/
structure Model where
  alphaVal : ℚ
  useBigrams : Bool
  wordCounts : String → String → ℕ
  totalWordCounts : String → ℕ
  docCounts : String → ℕ
  totalDocs : ℕ
  vocabSet : Finset String
  logPriors : String → WithBot ℚ
  vocabSize : ℕ

/-- `_resetModel` : zero all counters, empty the vocabulary, set the
priors to `-inf` and the vocabulary-size floor to 1. -/
def resetModel (m : Model) : Model :=
  { m with
    wordCounts := fun _ _ => 0
    totalWordCounts := fun _ => 0
    docCounts := fun _ => 0
    totalDocs := 0
    vocabSet := ∅
    logPriors := fun _ => ⊥
    vocabSize := 1 }

/-- `__init__(alpha, useBigrams)` : store the configuration and reset. -/
def initModel (alpha : ℚ) (useBigrams : Bool) : Model :=
  resetModel
    { alphaVal := alpha, useBigrams := useBigrams
      wordCounts := fun _ _ => 0, totalWordCounts := fun _ => 0
      docCounts := fun _ => 0, totalDocs := 0, vocabSet := ∅
      logPriors := fun _ => ⊥, vocabSize := 1 }

/-- The per-feature body of the training loop:
`wordCounts[label][token] += 1; totalWordCounts[label] += 1;
vocabSet.add(token)`. -/
def addToken (label : String) (m : Model) (token : String) : Model :=
  { m with
    wordCounts := fun l t =>
      if l = label ∧ t = token then m.wordCounts l t + 1 else m.wordCounts l t
    totalWordCounts := fun l =>
      if l = label then m.totalWordCounts l + 1 else m.totalWordCounts l
    vocabSet := insert token m.vocabSet }

/-- One iteration of the `for rawLine in lines` training loop: skip empty,
whitespace-only, malformed or unknown-label lines, otherwise count the
document and fold its features in.  The `label not in self.wordCounts`
test is membership in `labels`, the exact key set of that dict. -/
def processLine (m : Model) (rawLine : String) : Model :=
  if rawLine = "" then m
  else
    let line := strTrim rawLine
    if line = "" then m
    else
      let pieces := splitPipe2 line
      if pieces.length = 3 then
        let label := pieces.getD 0 ""
        let reviewText := pieces.getD 2 ""
        if label ∈ labels then
          let feats := extractFeatures m.useBigrams reviewText
          let m1 := { m with
            docCounts := fun l => if l = label then m.docCounts l + 1 else m.docCounts l
            totalDocs := m.totalDocs + 1 }
          feats.foldl (addToken label) m1
        else m
      else m

/-- The probability floor `1e-12` used by both clamps. -/
def floorProb : ℚ := 1 / 10 ^ 12

/-- `if chance <= 0: chance = 1e-12` (and the same clamp in `classify`). -/
def clampProb (q : ℚ) : ℚ := if q ≤ 0 then floorProb else q

/-- `if denom == 0: denom = 1` (both the prior denominator guard in
`train` and the cached-denominator guard in `classify`). -/
def guardDenom (q : ℚ) : ℚ := if q = 0 then 1 else q

/-- The raw prior denominator `totalDocs + len(labels) * alpha`. -/
def priorDenomRaw (a : ℚ) (totalDocs : ℕ) : ℚ :=
  (totalDocs : ℚ) + (labels.length : ℚ) * a

/-- The smoothed prior `(docCounts[label] + alpha) / priorDenom` with the
zero-denominator guard applied. -/
def chanceRaw (a : ℚ) (totalDocs docs : ℕ) : ℚ :=
  ((docs : ℚ) + a) / guardDenom (priorDenomRaw a totalDocs)

/-- `if len(self.vocabSet) > 0: self.vocabSize = len(self.vocabSet)`. -/
def vocabFloor (m1 : Model) : Model :=
  if 0 < m1.vocabSet.card then { m1 with vocabSize := m1.vocabSet.card } else m1

/-- The `for label in self.labels` prior loop: set every label's log-prior
to its (clamped) smoothed prior. -/
def withPriors (m2 : Model) : Model :=
  { m2 with
    logPriors := labels.foldl
      (fun f label => fun l =>
        if l = label then
          some (clampProb (chanceRaw m2.alphaVal m2.totalDocs (m2.docCounts label)))
        else f l)
      m2.logPriors }

/-- The body of `train` after the initial `_resetModel()` call: fold all
lines in, floor the vocabulary size, then recompute every label's
(clamped) smoothed prior. -/
def trainCore (mr : Model) (lines : List String) : Model :=
  withPriors (vocabFloor (lines.foldl processLine mr))

/-- `train` : reset the model, then rebuild it from the lines. -/
def train (m0 : Model) (lines : List String) : Model :=
  trainCore (resetModel m0) lines

/-- The counting invariants tying the aggregate fields to the detailed
counts: `totalDocs` is the sum of the per-label document counts,
each `totalWordCounts[l]` is the sum of `wordCounts[l]` over the
vocabulary, and `wordCounts` vanishes outside the vocabulary. -/
def CountsOk (m : Model) : Prop :=
  m.totalDocs = m.docCounts "1" + m.docCounts "5"
  ∧ (∀ l, m.totalWordCounts l = Finset.sum m.vocabSet (fun t => m.wordCounts l t))
  ∧ (∀ l t, t ∉ m.vocabSet → m.wordCounts l t = 0)

/-! ### Classification (`classify`) -/

/-- The cached per-label denominator
`totalWordCounts[label] + alpha * vocabSize`. -/
def denomCacheVal (m : Model) (label : String) : ℚ :=
  (m.totalWordCounts label : ℚ) + m.alphaVal * (m.vocabSize : ℚ)

/-- The per-feature likelihood value
`(wordCounts[label].get(token, 0) + alpha) / denom` with the denominator
guard applied. -/
def tokenValRaw (m : Model) (label : String) (token : String) : ℚ :=
  ((m.wordCounts label token : ℚ) + m.alphaVal) / guardDenom (denomCacheVal m label)

/-- One label's score: `-inf` for a label with no training documents,
otherwise the log-prior plus the per-feature log-likelihoods (held here
as the exact product, see the header). -/
def labelScore (m : Model) (feats : List String) (label : String) : WithBot ℚ :=
  if m.docCounts label = 0 then ⊥
  else
    feats.foldl
      (fun s token => s.map (fun p => p * clampProb (tokenValRaw m label token)))
      (m.logPriors label)

/-- The `scoreCard` dict built by the per-label loop, read back with
`.get(label, -inf)` semantics. -/
def scoreCard (m : Model) (feats : List String) : String → WithBot ℚ :=
  labels.foldl
    (fun sc label => fun l => if l = label then labelScore m feats label else sc l)
    (fun _ => ⊥)

/-- The selection loop: start at `('1', scoreCard.get('1', -inf))` and
replace the best on a strictly greater score, scanning `labels` in order. -/
def selectBest (sc : String → WithBot ℚ) : String :=
  (labels.foldl
    (fun best label => if sc label > best.2 then (label, sc label) else best)
    ("1", sc "1")).1

/-- Lines 74–79 of `classify` : the text field of a stripped line, the
empty string when the line does not split into exactly 3 fields. -/
def textOfLine (rawLine : String) : String :=
  let parts := splitPipe2 (strTrim rawLine)
  if parts.length = 3 then parts.getD 2 "" else ""

/-- The per-line body of `classify` : extract features from the (possibly
defaulted) text and pick the best-scoring label. -/
def classifyLine (m : Model) (rawLine : String) : String :=
  selectBest (scoreCard m (extractFeatures m.useBigrams (textOfLine rawLine)))

/-- `classify` : one prediction appended per input line; the model state
is threaded through the loop (the method performs no assignment to it). -/
def classify (m : Model) (lines : List String) : List String × Model :=
  lines.foldl (fun acc rawLine => (acc.1 ++ [classifyLine acc.2 rawLine], acc.2)) ([], m)

/-! ### Helper lemmas -/

/-- A non-empty string stays non-empty through `_stemWord`. -/
lemma stemWord_ne_empty (w : String) (hw : w ≠ "") : stemWord w ≠ "" := by
  by_cases h1 : strLen w ≤ 3
  · simpa [stemWord, h1] using hw
  · simp only [stemWord, if_neg h1]
    split_ifs <;> simp_all

/-- Every token emitted by the whitespace splitter is non-empty. -/
lemma wsTokens_ne_empty : ∀ (l acc : List Char), ∀ t ∈ wsTokens l acc, t ≠ "" := by
  intro l
  induction l with
  | nil =>
      intro acc t ht
      by_cases hacc : acc = []
      · simp [wsTokens, hacc] at ht
      · simp only [wsTokens, if_neg hacc, List.mem_singleton] at ht
        subst ht
        intro hcontra
        apply hacc
        have : acc.reverse = ([] : List Char) := congrArg String.data hcontra
        simpa using this
  | cons c rest ih =>
      intro acc t ht
      by_cases hsp : isSpaceChar c
      · by_cases hacc : acc = []
        · simp only [wsTokens, if_pos hsp, if_pos hacc] at ht
          exact ih [] t ht
        · simp only [wsTokens, if_pos hsp, if_neg hacc, List.mem_cons] at ht
          rcases ht with ht | ht
          · subst ht
            intro hcontra
            apply hacc
            have : acc.reverse = ([] : List Char) := congrArg String.data hcontra
            simpa using this
          · exact ih [] t ht
      · simp only [wsTokens, if_neg hsp] at ht
        exact ih (c :: acc) t ht

/-- Every token of `pySplit` is non-empty. -/
lemma pySplit_ne_empty (s : String) : ∀ t ∈ pySplit s, t ≠ "" :=
  wsTokens_ne_empty s.data []

/-- Every token of `_tokenizeText` is non-empty. -/
lemma tokenizeText_ne_empty (text : String) : ∀ t ∈ tokenizeText text, t ≠ "" := by
  intro t ht
  simp only [tokenizeText, List.mem_map] at ht
  obtain ⟨tok, htok, rfl⟩ := ht
  exact stemWord_ne_empty tok (pySplit_ne_empty _ tok (List.mem_of_mem_filter htok))

/-! ### C8 and C1 : stemmer claims -/

/-- C8: for every non-empty input word, `_stemWord` returns a non-empty
string (the empty-result fallback reverts to the original word, and the
function is total). -/
theorem stem_nonempty_for_nonempty (w : String) (hw : w ≠ "") : stemWord w ≠ "" :=
  stemWord_ne_empty w hw

/-- Witness for C8 at the concrete word "running". -/
theorem stem_nonempty_for_nonempty_witness :
    ("running" : String) ≠ "" ∧ stemWord "running" ≠ "" :=
  ⟨by decide, stem_nonempty_for_nonempty "running" (by decide)⟩

/-- C1: for every word of length ≥ 4, after the ordered suffix pass the
stemmer applies, in order and each conditionally (independently, not
mutually exclusively): strip a trailing "er" when the current length
exceeds 4, strip a trailing "ly" when the current length exceeds 4, strip
a trailing "e" when the current length exceeds 3; then the empty-result
fallback. -/
theorem stem_tail_rules (w : String) (hw : 4 ≤ strLen w) :
    stemWord w =
      (let w4 := stripIfSuffix "e" 3 (stripIfSuffix "ly" 4
        (stripIfSuffix "er" 4 (stripFirstSuffix w endings)))
       if w4 = "" then w else w4) := by
  have h3 : ¬ strLen w ≤ 3 := by omega
  have he : strLen "e" = 1 := rfl
  have her : strLen "er" = 2 := rfl
  have hly : strLen "ly" = 2 := rfl
  simp only [stemWord, if_neg h3, stripIfSuffix, he, her, hly]

/-- Witness for C1 at the concrete word "absolutely" (where both the
suffix-table rule "ly" and the final "e" rule fire, showing the rules are
not mutually exclusive). -/
theorem stem_tail_rules_witness :
    4 ≤ strLen "absolutely"
      ∧ stemWord "absolutely" =
          (let w4 := stripIfSuffix "e" 3 (stripIfSuffix "ly" 4
            (stripIfSuffix "er" 4 (stripFirstSuffix "absolutely" endings)))
           if w4 = "" then "absolutely" else w4) :=
  ⟨by decide, stem_tail_rules "absolutely" (by decide)⟩

/-! ### C7 : feature extraction -/

/-- The bigram loop equals the zip of the token list with its tail. -/
lemma bigramsOf_eq_zipWith :
    ∀ l : List String,
      bigramsOf l = List.zipWith (fun a b => a ++ "_" ++ b) l l.tail
  | [] => rfl
  | [_] => rfl
  | a :: b :: rest => by
      simp only [bigramsOf, List.tail_cons, List.zipWith]
      exact congrArg _ (bigramsOf_eq_zipWith (b :: rest))

/-- The truthiness filter over the tokens is the identity. -/
lemma tokens_filter_eq (text : String) :
    (tokenizeText text).filter (fun t => t ≠ "") = tokenizeText text := by
  rw [List.filter_eq_self]
  intro t ht
  simpa using tokenizeText_ne_empty text t ht

/-- C7: all unigram tokens come first, in order with duplicates retained;
in bigram mode with more than one token, exactly `n - 1` underscore-joined
adjacent-pair bigrams follow, in sequence order; otherwise no bigram is
produced. -/
theorem features_unigrams_then_bigrams (ub : Bool) (text : String) :
    extractFeatures ub text
        = tokenizeText text
          ++ (if ub ∧ 1 < (tokenizeText text).length
              then List.zipWith (fun a b => a ++ "_" ++ b)
                     (tokenizeText text) (tokenizeText text).tail
              else [])
      ∧ (List.zipWith (fun a b => a ++ "_" ++ b)
          (tokenizeText text) (tokenizeText text).tail).length
        = (tokenizeText text).length - 1 := by
  constructor
  · simp only [extractFeatures, tokens_filter_eq]
    by_cases h : ub = true ∧ 1 < (tokenizeText text).length
    · simp [if_pos h, bigramsOf_eq_zipWith]
    · simp [if_neg h]
  · simp only [List.length_zipWith, List.length_tail]
    omega

/-! ### Classification helper lemmas -/

/-- The selection loop over the two labels in canonical order picks "5"
exactly when its score is strictly greater than the score of "1", and
keeps the first-seen "1" otherwise (in particular on ties). -/
lemma selectBest_eq (sc : String → WithBot ℚ) :
    selectBest sc = if sc "1" < sc "5" then "5" else "1" := by
  simp only [selectBest, labels, List.foldl, gt_iff_lt, lt_irrefl, if_false]
  by_cases h : sc "1" < sc "5"
  · simp [h]
  · simp [h]

/-- The score dict read back as a function: the two labels carry their
scores, anything else the `.get` default `-inf`. -/
lemma scoreCard_eq (m : Model) (feats : List String) :
    scoreCard m feats
      = fun l =>
          if l = "5" then labelScore m feats "5"
          else if l = "1" then labelScore m feats "1" else ⊥ := by
  simp only [scoreCard, labels, List.foldl]

/-- The classification loop is a map over the input lines, and the model
component of the threaded state is returned unchanged. -/
lemma classify_eq (m : Model) (lines : List String) :
    classify m lines = (lines.map (classifyLine m), m) := by
  suffices h : ∀ (ls : List String) (acc : List String × Model),
      ls.foldl (fun acc rawLine => (acc.1 ++ [classifyLine acc.2 rawLine], acc.2)) acc
        = (acc.1 ++ ls.map (classifyLine acc.2), acc.2) by
    simpa [classify] using h lines ([], m)
  intro ls
  induction ls with
  | nil => intro acc; simp
  | cons x xs ih => intro acc; simp [ih]

/-! ### C2, C3, C9 : classification claims -/

/-- C2: per line, `classify` keeps the first-seen best while scanning the
labels in canonical order, so it answers "5" exactly when that score is
strictly greater and "1" otherwise (ties included); on a never-trained
model every line is answered "1". -/
theorem classify_selection_and_untrained :
    (∀ (m : Model) (lines : List String),
        (classify m lines).1
          = lines.map (fun raw =>
              if scoreCard m (extractFeatures m.useBigrams (textOfLine raw)) "1"
                  < scoreCard m (extractFeatures m.useBigrams (textOfLine raw)) "5"
              then "5" else "1"))
    ∧ (∀ (a : ℚ) (ub : Bool) (lines : List String),
        (classify (initModel a ub) lines).1 = lines.map (fun _ => "1")) := by
  constructor
  · intro m lines
    rw [classify_eq]
    refine List.map_congr_left fun raw _ => ?_
    rw [classifyLine, selectBest_eq]
  · intro a ub lines
    rw [classify_eq]
    refine List.map_congr_left fun raw _ => ?_
    rw [classifyLine, selectBest_eq, scoreCard_eq]
    have hbot : ∀ feats lab, labelScore (initModel a ub) feats lab = ⊥ := by
      intro feats lab
      simp [labelScore, initModel, resetModel]
    simp [hbot]

/-- C3: `classify` produces exactly one label per input line, in order,
and a line whose (at most twice) pipe-split does not have exactly 3
fields contributes the empty string as its text. -/
theorem classify_total_and_malformed :
    (∀ (m : Model) (lines : List String),
        (classify m lines).1 = lines.map (classifyLine m)
        ∧ (classify m lines).1.length = lines.length)
    ∧ (∀ raw : String,
        (splitPipe2 (strTrim raw)).length ≠ 3 → textOfLine raw = "") := by
  constructor
  · intro m lines
    rw [classify_eq]
    exact ⟨rfl, List.length_map _ _⟩
  · intro raw h
    simp [textOfLine, h]

/-- Witness for C3 at a malformed two-field line. -/
theorem classify_total_and_malformed_witness :
    (classify (initModel 1 true) ["x|y"]).1.length = 1
      ∧ (splitPipe2 (strTrim "x|y")).length ≠ 3 ∧ textOfLine "x|y" = "" :=
  ⟨(classify_total_and_malformed.1 (initModel 1 true) ["x|y"]).2,
   by decide,
   classify_total_and_malformed.2 "x|y" (by decide)⟩

/-- C9: `classify` never mutates the model: the state it threads through
the per-line loop is returned unchanged, every field included. -/
theorem classify_preserves_model (m : Model) (lines : List String) :
    (classify m lines).2 = m := by
  rw [classify_eq]

/-! ### Training helper lemmas -/

/-- The fields the per-feature loop never assigns are preserved by it. -/
lemma foldl_addToken_fields (lab : String) :
    ∀ (feats : List String) (m : Model),
      ((feats.foldl (addToken lab) m).alphaVal = m.alphaVal)
      ∧ ((feats.foldl (addToken lab) m).useBigrams = m.useBigrams)
      ∧ ((feats.foldl (addToken lab) m).docCounts = m.docCounts)
      ∧ ((feats.foldl (addToken lab) m).totalDocs = m.totalDocs)
      ∧ ((feats.foldl (addToken lab) m).vocabSize = m.vocabSize)
      ∧ ((feats.foldl (addToken lab) m).logPriors = m.logPriors)
  | [], _ => ⟨rfl, rfl, rfl, rfl, rfl, rfl⟩
  | t :: ts, m => by
      rw [List.foldl_cons]
      exact foldl_addToken_fields lab ts (addToken lab m t)

/-- The fields one training-loop iteration never assigns are preserved. -/
lemma processLine_fields (m : Model) (raw : String) :
    ((processLine m raw).alphaVal = m.alphaVal)
    ∧ ((processLine m raw).useBigrams = m.useBigrams)
    ∧ ((processLine m raw).vocabSize = m.vocabSize)
    ∧ ((processLine m raw).logPriors = m.logPriors) := by
  simp only [processLine]
  split_ifs <;>
    first
      | exact ⟨rfl, rfl, rfl, rfl⟩
      | exact ⟨(foldl_addToken_fields _ _ _).1, (foldl_addToken_fields _ _ _).2.1,
          (foldl_addToken_fields _ _ _).2.2.2.2.1, (foldl_addToken_fields _ _ _).2.2.2.2.2⟩

/-- The fields the whole training loop never assigns are preserved. -/
lemma foldl_processLine_fields :
    ∀ (lines : List String) (m : Model),
      (((lines.foldl processLine m).alphaVal = m.alphaVal)
      ∧ ((lines.foldl processLine m).useBigrams = m.useBigrams)
      ∧ ((lines.foldl processLine m).vocabSize = m.vocabSize)
      ∧ ((lines.foldl processLine m).logPriors = m.logPriors))
  | [], _ => ⟨rfl, rfl, rfl, rfl⟩
  | x :: xs, m => by
      rw [List.foldl_cons]
      obtain ⟨h1, h2, h3, h4⟩ := foldl_processLine_fields xs (processLine m x)
      obtain ⟨g1, g2, g3, g4⟩ := processLine_fields m x
      exact ⟨h1.trans g1, h2.trans g2, h3.trans g3, h4.trans g4⟩

/-- `vocabFloor` only assigns `vocabSize`. -/
lemma vocabFloor_fields (m : Model) :
    ((vocabFloor m).alphaVal = m.alphaVal)
    ∧ ((vocabFloor m).useBigrams = m.useBigrams)
    ∧ ((vocabFloor m).wordCounts = m.wordCounts)
    ∧ ((vocabFloor m).totalWordCounts = m.totalWordCounts)
    ∧ ((vocabFloor m).docCounts = m.docCounts)
    ∧ ((vocabFloor m).totalDocs = m.totalDocs)
    ∧ ((vocabFloor m).vocabSet = m.vocabSet) := by
  simp only [vocabFloor]
  split_ifs <;> exact ⟨rfl, rfl, rfl, rfl, rfl, rfl, rfl⟩

/-- The immutable configuration survives `train`. -/
lemma train_config (m : Model) (lines : List String) :
    ((train m lines).alphaVal = m.alphaVal)
    ∧ ((train m lines).useBigrams = m.useBigrams) := by
  have h := foldl_processLine_fields lines (resetModel m)
  have hv := vocabFloor_fields (lines.foldl processLine (resetModel m))
  exact ⟨hv.1.trans h.1, hv.2.1.trans h.2.1⟩

/-- The vocabulary-size floor holds after every `train` call. -/
lemma train_vocabSize (m : Model) (lines : List String) :
    1 ≤ (train m lines).vocabSize := by
  show 1 ≤ (vocabFloor (lines.foldl processLine (resetModel m))).vocabSize
  simp only [vocabFloor]
  split_ifs with h
  · exact h
  · exact le_of_eq (foldl_processLine_fields lines (resetModel m)).2.2.1.symm

/-- Adding 1 at one key of a counter supported inside `S` adds 1 to its
sum over `insert tok S`. -/
lemma sum_insert_bump (S : Finset String) (f : String → ℕ) (tok : String)
    (hsupp : tok ∉ S → f tok = 0) :
    Finset.sum (insert tok S) (fun t => if t = tok then f t + 1 else f t)
      = Finset.sum S f + 1 := by
  by_cases hmem : tok ∈ S
  · rw [Finset.insert_eq_self.mpr hmem]
    have hpt : ∀ t, (if t = tok then f t + 1 else f t)
        = f t + (if t = tok then 1 else 0) := by
      intro t; by_cases h : t = tok <;> simp [h]
    calc Finset.sum S (fun t => if t = tok then f t + 1 else f t)
        = Finset.sum S (fun t => f t + (if t = tok then 1 else 0)) := by
          exact Finset.sum_congr rfl fun t _ => hpt t
      _ = Finset.sum S f + Finset.sum S (fun t => if t = tok then 1 else 0) :=
          Finset.sum_add_distrib
      _ = Finset.sum S f + 1 := by
          rw [Finset.sum_ite_eq' S tok (fun _ => 1), if_pos hmem]
  · rw [Finset.sum_insert hmem]
    have h0 : f tok = 0 := hsupp hmem
    have hrest : Finset.sum S (fun t => if t = tok then f t + 1 else f t)
        = Finset.sum S f := by
      refine Finset.sum_congr rfl fun t ht => ?_
      have : t ≠ tok := fun h => hmem (h ▸ ht)
      simp [this]
    rw [hrest]
    have hii : (if tok = tok then f tok + 1 else f tok) = f tok + 1 := if_pos rfl
    rw [hii, h0]
    omega

/-- Inserting a key on which a counter supported inside `S` vanishes does
not change its sum. -/
lemma sum_insert_same (S : Finset String) (g : String → ℕ) (tok : String)
    (hsupp : tok ∉ S → g tok = 0) :
    Finset.sum (insert tok S) g = Finset.sum S g := by
  by_cases hmem : tok ∈ S
  · rw [Finset.insert_eq_self.mpr hmem]
  · rw [Finset.sum_insert hmem, hsupp hmem, zero_add]

/-- The counting invariants are preserved by the per-feature update. -/
lemma countsOk_addToken (lab : String) (m : Model) (tok : String)
    (h : CountsOk m) : CountsOk (addToken lab m tok) := by
  obtain ⟨hA, hB, hC⟩ := h
  refine ⟨hA, ?_, ?_⟩
  · intro l
    show (if l = lab then m.totalWordCounts l + 1 else m.totalWordCounts l)
        = Finset.sum (insert tok m.vocabSet)
            (fun t => if l = lab ∧ t = tok then m.wordCounts l t + 1 else m.wordCounts l t)
    by_cases hl : l = lab
    · have hpt : (fun t => if l = lab ∧ t = tok then m.wordCounts l t + 1 else m.wordCounts l t)
          = fun t => if t = tok then m.wordCounts l t + 1 else m.wordCounts l t := by
        funext t; by_cases ht : t = tok <;> simp [hl, ht]
      rw [if_pos hl, hpt, sum_insert_bump m.vocabSet (m.wordCounts l) tok (hC l tok), hB l]
    · have hpt : (fun t => if l = lab ∧ t = tok then m.wordCounts l t + 1 else m.wordCounts l t)
          = fun t => m.wordCounts l t := by
        funext t; simp [hl]
      rw [if_neg hl, hpt, sum_insert_same m.vocabSet (m.wordCounts l) tok (hC l tok), hB l]
  · intro l t ht
    have h1 : t ≠ tok := fun he => ht (he ▸ Finset.mem_insert_self tok m.vocabSet)
    have h2 : t ∉ m.vocabSet := fun hm => ht (Finset.mem_insert_of_mem hm)
    show (if l = lab ∧ t = tok then m.wordCounts l t + 1 else m.wordCounts l t) = 0
    simp [h1, hC l t h2]

/-- The counting invariants are preserved by the whole per-line feature
fold. -/
lemma countsOk_foldl_addToken (lab : String) :
    ∀ (feats : List String) (m : Model), CountsOk m →
      CountsOk (feats.foldl (addToken lab) m)
  | [], _, h => h
  | t :: ts, m, h => by
      rw [List.foldl_cons]
      exact countsOk_foldl_addToken lab ts _ (countsOk_addToken lab m t h)

/-- The counting invariants are preserved by one training-loop iteration. -/
lemma countsOk_processLine (m : Model) (raw : String) (h : CountsOk m) :
    CountsOk (processLine m raw) := by
  obtain ⟨hA, hB, hC⟩ := h
  simp only [processLine]
  split_ifs with h1 h2 h3 h4
  · exact ⟨hA, hB, hC⟩
  · exact ⟨hA, hB, hC⟩
  · refine countsOk_foldl_addToken _ _ _ ⟨?_, hB, hC⟩
    have hlab : (splitPipe2 (strTrim raw)).getD 0 "" = "1"
        ∨ (splitPipe2 (strTrim raw)).getD 0 "" = "5" := by
      simpa [labels] using h4
    show m.totalDocs + 1
        = (if ("1" : String) = (splitPipe2 (strTrim raw)).getD 0 ""
             then m.docCounts "1" + 1 else m.docCounts "1")
          + (if ("5" : String) = (splitPipe2 (strTrim raw)).getD 0 ""
             then m.docCounts "5" + 1 else m.docCounts "5")
    rcases hlab with hl | hl <;> rw [hl] <;> simp <;> omega
  · exact ⟨hA, hB, hC⟩
  · exact ⟨hA, hB, hC⟩

/-- The counting invariants are preserved by the whole training loop. -/
lemma countsOk_foldl_processLine :
    ∀ (lines : List String) (m : Model), CountsOk m →
      CountsOk (lines.foldl processLine m)
  | [], _, h => h
  | x :: xs, m, h => by
      rw [List.foldl_cons]
      exact countsOk_foldl_processLine xs _ (countsOk_processLine m x h)

/-- A freshly reset model satisfies the counting invariants. -/
lemma countsOk_resetModel (m : Model) : CountsOk (resetModel m) := by
  refine ⟨rfl, fun l => ?_, fun l t _ => rfl⟩
  simp [resetModel]

/-- The counting invariants hold after every `train` call. -/
lemma countsOk_train (m : Model) (lines : List String) :
    CountsOk (train m lines) := by
  have h := countsOk_foldl_processLine lines (resetModel m) (countsOk_resetModel m)
  have hv := vocabFloor_fields (lines.foldl processLine (resetModel m))
  show CountsOk (withPriors (vocabFloor (lines.foldl processLine (resetModel m))))
  obtain ⟨hA, hB, hC⟩ := h
  refine ⟨?_, fun l => ?_, fun l t ht => ?_⟩
  · show (vocabFloor _).totalDocs = (vocabFloor _).docCounts "1" + (vocabFloor _).docCounts "5"
    rw [hv.2.2.2.2.2.1, hv.2.2.2.2.1]
    exact hA
  · show (vocabFloor _).totalWordCounts l
        = Finset.sum (vocabFloor _).vocabSet (fun t => (vocabFloor _).wordCounts l t)
    rw [hv.2.2.2.1, hv.2.2.1, hv.2.2.2.2.2.2]
    exact hB l
  · show (vocabFloor _).wordCounts l t = 0
    rw [hv.2.2.1]
    have ht' : t ∉ (vocabFloor (lines.foldl processLine (resetModel m))).vocabSet := ht
    rw [hv.2.2.2.2.2.2] at ht'
    exact hC l t ht'

/-- The prior loop stores each label's clamped smoothed prior. -/
lemma withPriors_logPriors (m2 : Model) :
    (withPriors m2).logPriors "1"
        = some (clampProb (chanceRaw m2.alphaVal m2.totalDocs (m2.docCounts "1")))
    ∧ (withPriors m2).logPriors "5"
        = some (clampProb (chanceRaw m2.alphaVal m2.totalDocs (m2.docCounts "5"))) := by
  have h15 : ("1" : String) ≠ "5" := by decide
  constructor <;> simp [withPriors, labels, h15]

/-- The log-priors stored by `train`, per label. -/
lemma train_logPriors (m : Model) (lines : List String) :
    (train m lines).logPriors "1"
        = some (clampProb (chanceRaw (train m lines).alphaVal
            (train m lines).totalDocs ((train m lines).docCounts "1")))
    ∧ (train m lines).logPriors "5"
        = some (clampProb (chanceRaw (train m lines).alphaVal
            (train m lines).totalDocs ((train m lines).docCounts "5"))) :=
  ⟨(withPriors_logPriors _).1, (withPriors_logPriors _).2⟩

/-! ### C4, C5, C6, C10 : training claims -/

/-- C4: after every `train` call, `totalDocs` is the sum of the per-label
document counts, each label's `totalWordCounts` is the sum of its
`wordCounts` over the vocabulary, and `vocabSize` is at least 1. -/
theorem train_invariants (m : Model) (lines : List String) :
    (train m lines).totalDocs
        = (train m lines).docCounts "1" + (train m lines).docCounts "5"
    ∧ (∀ l ∈ labels, (train m lines).totalWordCounts l
        = Finset.sum (train m lines).vocabSet (fun t => (train m lines).wordCounts l t))
    ∧ 1 ≤ (train m lines).vocabSize := by
  obtain ⟨hA, hB, _⟩ := countsOk_train m lines
  exact ⟨hA, fun l _ => hB l, train_vocabSize m lines⟩

/-- Witness for C4 at a concrete one-line training run. -/
theorem train_invariants_witness :
    ("1" : String) ∈ labels
    ∧ (train (initModel 1 true) ["1||good movie"]).totalWordCounts "1"
        = Finset.sum (train (initModel 1 true) ["1||good movie"]).vocabSet
            (fun t => (train (initModel 1 true) ["1||good movie"]).wordCounts "1" t) :=
  ⟨by decide,
   (train_invariants (initModel 1 true) ["1||good movie"]).2.1 "1" (by decide)⟩

/-- C5: with a positive smoothing constant and at least one accepted
training document, the two stored smoothed priors are exactly
`(docCounts[l] + alpha) / (totalDocs + 2*alpha)` and they sum to 1 in
exact rational arithmetic. -/
theorem priors_sum_to_one (m : Model) (lines : List String)
    (ha : 0 < m.alphaVal) (_hD : 0 < (train m lines).totalDocs) :
    ∃ p1 p5 : ℚ,
      (train m lines).logPriors "1" = some p1
      ∧ (train m lines).logPriors "5" = some p5
      ∧ p1 = (((train m lines).docCounts "1" : ℚ) + m.alphaVal)
              / (((train m lines).totalDocs : ℚ) + 2 * m.alphaVal)
      ∧ p5 = (((train m lines).docCounts "5" : ℚ) + m.alphaVal)
              / (((train m lines).totalDocs : ℚ) + 2 * m.alphaVal)
      ∧ p1 + p5 = 1 := by
  have halpha : (train m lines).alphaVal = m.alphaVal := (train_config m lines).1
  have hsum := (countsOk_train m lines).1
  obtain ⟨hp1, hp5⟩ := train_logPriors m lines
  have hlen : ((labels.length : ℕ) : ℚ) = 2 := by norm_num [labels]
  have hDpos : (0:ℚ) < ((train m lines).totalDocs : ℚ) + 2 * m.alphaVal := by
    have h0 : (0:ℚ) ≤ ((train m lines).totalDocs : ℚ) := Nat.cast_nonneg _
    nlinarith
  have hguard : guardDenom (priorDenomRaw (train m lines).alphaVal (train m lines).totalDocs)
      = ((train m lines).totalDocs : ℚ) + 2 * m.alphaVal := by
    rw [priorDenomRaw, hlen, halpha, guardDenom, if_neg (ne_of_gt hDpos)]
  have hchance : ∀ d : ℕ,
      chanceRaw (train m lines).alphaVal (train m lines).totalDocs d
        = ((d:ℚ) + m.alphaVal) / (((train m lines).totalDocs : ℚ) + 2 * m.alphaVal) := by
    intro d; rw [chanceRaw, hguard, halpha]
  have hcpos : ∀ d : ℕ,
      0 < chanceRaw (train m lines).alphaVal (train m lines).totalDocs d := by
    intro d
    rw [hchance]
    have h0 : (0:ℚ) ≤ (d:ℚ) := Nat.cast_nonneg _
    exact div_pos (by linarith) hDpos
  have hclamp : ∀ d : ℕ,
      clampProb (chanceRaw (train m lines).alphaVal (train m lines).totalDocs d)
        = chanceRaw (train m lines).alphaVal (train m lines).totalDocs d := by
    intro d; rw [clampProb, if_neg (not_le.mpr (hcpos d))]
  rw [hclamp, hchance] at hp1 hp5
  refine ⟨_, _, hp1, hp5, rfl, rfl, ?_⟩
  rw [div_add_div_same]
  have hnum : (((train m lines).docCounts "1" : ℚ) + m.alphaVal)
      + (((train m lines).docCounts "5" : ℚ) + m.alphaVal)
      = ((train m lines).totalDocs : ℚ) + 2 * m.alphaVal := by
    rw [hsum]
    push_cast
    ring
  rw [hnum, div_self (ne_of_gt hDpos)]

/-- Witness for C5 at a concrete one-line training run. -/
theorem priors_sum_to_one_witness :
    0 < (initModel 1 true).alphaVal
    ∧ 0 < (train (initModel 1 true) ["1||good"]).totalDocs
    ∧ ∃ p1 p5 : ℚ,
        (train (initModel 1 true) ["1||good"]).logPriors "1" = some p1
        ∧ (train (initModel 1 true) ["1||good"]).logPriors "5" = some p5
        ∧ p1 = (((train (initModel 1 true) ["1||good"]).docCounts "1" : ℚ)
                  + (initModel 1 true).alphaVal)
                / (((train (initModel 1 true) ["1||good"]).totalDocs : ℚ)
                  + 2 * (initModel 1 true).alphaVal)
        ∧ p5 = (((train (initModel 1 true) ["1||good"]).docCounts "5" : ℚ)
                  + (initModel 1 true).alphaVal)
                / (((train (initModel 1 true) ["1||good"]).totalDocs : ℚ)
                  + 2 * (initModel 1 true).alphaVal)
        ∧ p1 + p5 = 1 :=
  ⟨by norm_num [initModel, resetModel], by decide,
   priors_sum_to_one (initModel 1 true) ["1||good"]
     (by norm_num [initModel, resetModel]) (by decide)⟩

/-- Resetting erases everything a training run changed. -/
lemma resetModel_train (m : Model) (lines : List String) :
    resetModel (train m lines) = resetModel m := by
  obtain ⟨h1, h2⟩ := train_config m lines
  simp only [resetModel]
  rw [h1, h2]

/-- C6: training is idempotent by replacement: a second `train` call on
the same input rebuilds exactly the same model, every field included. -/
theorem train_idempotent (m : Model) (lines : List String) :
    train (train m lines) lines = train m lines := by
  show trainCore (resetModel (train m lines)) lines = trainCore (resetModel m) lines
  rw [resetModel_train]

/-- C10: with a positive smoothing constant the defensive fallbacks are
dead: the prior denominator and each cached likelihood denominator are
non-zero (their zero guards are identities), every smoothed prior and
per-feature value is strictly positive (the `1e-12` clamps are
identities), and every reachable model has `vocabSize ≥ 1`. -/
theorem clamps_unreachable (a : ℚ) (ha : 0 < a) :
    (∀ D d : ℕ,
        priorDenomRaw a D ≠ 0
        ∧ guardDenom (priorDenomRaw a D) = priorDenomRaw a D
        ∧ 0 < chanceRaw a D d
        ∧ clampProb (chanceRaw a D d) = chanceRaw a D d)
    ∧ (∀ m : Model, m.alphaVal = a → 1 ≤ m.vocabSize →
        ∀ label token : String,
          denomCacheVal m label ≠ 0
          ∧ guardDenom (denomCacheVal m label) = denomCacheVal m label
          ∧ 0 < tokenValRaw m label token
          ∧ clampProb (tokenValRaw m label token) = tokenValRaw m label token)
    ∧ (∀ ub : Bool, 1 ≤ (initModel a ub).vocabSize)
    ∧ (∀ (m : Model) (lines : List String), 1 ≤ (train m lines).vocabSize) := by
  have hlen : ((labels.length : ℕ) : ℚ) = 2 := by norm_num [labels]
  refine ⟨?_, ?_, ?_, ?_⟩
  · intro D d
    have hD0 : (0:ℚ) ≤ (D:ℚ) := Nat.cast_nonneg _
    have hpos : 0 < priorDenomRaw a D := by
      rw [priorDenomRaw, hlen]; nlinarith
    have hguard : guardDenom (priorDenomRaw a D) = priorDenomRaw a D := by
      rw [guardDenom, if_neg (ne_of_gt hpos)]
    have hcpos : 0 < chanceRaw a D d := by
      rw [chanceRaw, hguard]
      have hd0 : (0:ℚ) ≤ (d:ℚ) := Nat.cast_nonneg _
      exact div_pos (by linarith) hpos
    exact ⟨ne_of_gt hpos, hguard, hcpos, by rw [clampProb, if_neg (not_le.mpr hcpos)]⟩
  · intro m hma hvs label token
    have h1 : (1:ℚ) ≤ (m.vocabSize : ℚ) := by exact_mod_cast hvs
    have htw : (0:ℚ) ≤ (m.totalWordCounts label : ℚ) := Nat.cast_nonneg _
    have hpos : 0 < denomCacheVal m label := by
      rw [denomCacheVal, hma]
      nlinarith [mul_le_mul_of_nonneg_left h1 (le_of_lt ha)]
    have hguard : guardDenom (denomCacheVal m label) = denomCacheVal m label := by
      rw [guardDenom, if_neg (ne_of_gt hpos)]
    have hvpos : 0 < tokenValRaw m label token := by
      rw [tokenValRaw, hguard, hma]
      have hw0 : (0:ℚ) ≤ (m.wordCounts label token : ℚ) := Nat.cast_nonneg _
      exact div_pos (by linarith) hpos
    exact ⟨ne_of_gt hpos, hguard, hvpos, by rw [clampProb, if_neg (not_le.mpr hvpos)]⟩
  · intro ub
    exact Nat.le_refl 1
  · intro m lines
    exact train_vocabSize m lines

/-- Witness for C10 at `alpha = 1` and concrete inputs. -/
theorem clamps_unreachable_witness :
    priorDenomRaw 1 0 ≠ 0
    ∧ 0 < chanceRaw 1 0 0
    ∧ clampProb (tokenValRaw (initModel 1 true) "1" "film")
        = tokenValRaw (initModel 1 true) "1" "film"
    ∧ 1 ≤ (train (initModel 1 true) []).vocabSize := by
  have h := clamps_unreachable 1 (by norm_num)
  exact ⟨(h.1 0 0).1, (h.1 0 0).2.2.1,
    (h.2.1 (initModel 1 true) rfl (by decide) "1" "film").2.2.2,
    h.2.2.2 (initModel 1 true) []⟩

end NaiveBayes
